import Mathlib

/-!
Shallow embedding of `gerador_mega_sena_virada.py` (Mega-Sena bet generator).

Modelling conventions:
* Python's global `random` module is modelled by an explicit oracle `RState`:
  an infinite stream of naturals together with a cursor.  Each primitive
  (`random.sample`, `random.choice`, `random.shuffle`) consumes entries of the
  stream and returns the advanced state.  Quantifying over all oracles covers
  every behaviour of the real pseudo-random generator.
* Python floats are modelled by exact rationals `ℚ`.  On the domain relevant to
  the claims (`qtd_numeros ∈ [6,15]`, coefficients 0.8 / 0.5 / 1.2) the float
  computations of the source agree with the exact rational ones.
* The unbounded `while True:` loop of `gerar_aposta` and the inner fill loop of
  `gerar_combinacao_proporcional` are modelled with an explicit fuel parameter;
  `none` means the loop was still running when the fuel ran out.
* A pandas row of the draw history is a `Sorteio` (contest number + drawn
  balls); a pandas Series indexed by 1..60 is a function `Nat → Nat`.
-/

namespace MegaSena

/-- Oracle for the `random` module: a stream of naturals and a cursor. -/
structure RState where
  stream : Nat → Nat
  pos : Nat

/-- Draw the next raw value, reduced mod `n`, advancing the cursor. -/
def RState.next (s : RState) (n : Nat) : Nat × RState :=
  (s.stream s.pos % n, ⟨s.stream, s.pos + 1⟩)

/-- Model of `random.sample(l, k)`: pick `k` distinct positions, one at a time.
Each step removes the picked position, so the result is a duplicate-free
selection from `l` (when `l` itself is duplicate-free). -/
def sample : Nat → List Nat → RState → List Nat × RState
  | 0, _, s => ([], s)
  | _ + 1, [], s => ([], s)
  | k + 1, x :: xs, s =>
    let l := x :: xs
    let p := s.next l.length
    let r := sample k (l.eraseIdx p.1) p.2
    (l.getD p.1 0 :: r.1, r.2)

/-- Model of `random.choice(l)` (callers guarantee `l ≠ []`). -/
def choice (l : List Nat) (s : RState) : Nat × RState :=
  let p := s.next l.length
  (l.getD p.1 0, p.2)

/-- Model of `random.shuffle(l)`: emit a random arrangement of all of `l`. -/
def shuffle (l : List Nat) (s : RState) : List Nat × RState :=
  sample l.length l s

/-- One row of the draw history: contest number and the drawn balls
(columns CONCURSO and BOLA1..BOLA6). -/
structure Sorteio where
  concurso : Nat
  bolas : List Nat
  deriving Repr, DecidableEq

/-- Python's `set(a) == set(b)` on lists of numbers. -/
def setEq (a b : List Nat) : Bool :=
  a.all (fun x => decide (x ∈ b)) && b.all (fun x => decide (x ∈ a))

/-- `ja_saiu_no_historico`: the combination already occurred in the history
(same set of balls as some row). -/
def ja_saiu_no_historico (combinacao : List Nat) (df : List Sorteio) : Bool :=
  df.any (fun d => setEq combinacao d.bolas)

/-- Inner loop of `tem_mais_de_3_consecutivos`: `prev` is the previous element
of the sorted list, `cnt` the length of the current consecutive run ending at
`prev`; returns `true` as soon as the run length exceeds 3. -/
def consecutivosAux (prev cnt : Nat) : List Nat → Bool
  | [] => false
  | x :: xs =>
    if x = prev + 1 then
      if cnt + 1 > 3 then true else consecutivosAux x (cnt + 1) xs
    else consecutivosAux x 1 xs

/-- `tem_mais_de_3_consecutivos`: the combination, sorted ascending, contains a
run of more than 3 consecutive numbers. -/
def tem_mais_de_3_consecutivos (combinacao : List Nat) : Bool :=
  match List.insertionSort (· ≤ ·) combinacao with
  | [] => false
  | x :: xs => consecutivosAux x 1 xs

/-- `df['CONCURSO'].max()` (history assumed non-empty, as in the source). -/
def ultimo_concurso (df : List Sorteio) : Nat :=
  (df.map (·.concurso)).foldl max 0

/-- The dictionary `ultimo_concurso_num` of `calcular_atraso_numeros`:
initialised to -1, overwritten row by row with the contest number of each row
containing `n`. -/
def ultimo_concurso_num (df : List Sorteio) (n : Nat) : Int :=
  df.foldl (fun acc d => if n ∈ d.bolas then (d.concurso : Int) else acc) (-1)

/-- `calcular_atraso_numeros`: staleness of number `n` — contests elapsed since
its last appearance, or the last contest number if it never appeared. -/
def calcular_atraso_numeros (df : List Sorteio) (n : Nat) : Int :=
  if ultimo_concurso_num df n = -1 then (ultimo_concurso df : Int)
  else (ultimo_concurso df : Int) - ultimo_concurso_num df n

/-- `proporcao_impares_pares`: fraction of odd balls over all slots of all
rows, 0 for an empty history. -/
def proporcao_impares_pares (df : List Sorteio) : ℚ :=
  let total_numeros := (df.map (·.bolas.length)).sum
  let total_impares := (df.map (fun d => (d.bolas.filter (fun x => decide (x % 2 ≠ 0))).length)).sum
  if total_numeros = 0 then 0 else (total_impares : ℚ) / (total_numeros : ℚ)

/-- Quota split of `gerar_combinacao_proporcional` (lines 173-185 of the
source): `math.ceil` of 80% (or 50%) of the requested count, remainder for the
other pool. -/
def quotas (qtd_numeros : Nat) (foco : String) : Nat × Nat :=
  if foco = "frequentes" then
    let n_freq := Nat.ceil ((qtd_numeros : ℚ) * 0.8)
    (n_freq, qtd_numeros - n_freq)
  else if foco = "atrasados" then
    let n_atra := Nat.ceil ((qtd_numeros : ℚ) * 0.8)
    (qtd_numeros - n_atra, n_atra)
  else
    let n_freq := Nat.ceil ((qtd_numeros : ℚ) * 0.5)
    (n_freq, qtd_numeros - n_freq)

/-- Fill loop of `gerar_combinacao_proporcional` (lines 204-208): while the
chosen set is smaller than requested, add a random number of 1..60 not yet
chosen; stop when none remains.  The Python loop is unbounded; `fuel` bounds
the iterations of this model (`preencher_estavel` shows 60 always suffices). -/
def preencher (qtd_numeros : Nat) : Nat → List Nat → RState → List Nat × RState
  | 0, comb, s => (comb, s)
  | fuel + 1, comb, s =>
    if comb.length < qtd_numeros then
      let resto := (List.range' 1 60).filter (fun y => !decide (y ∈ comb))
      if resto.isEmpty then (comb, s)
      else
        let p := choice resto s
        preencher qtd_numeros fuel (comb.insert p.1) p.2
    else (comb, s)

/-- `gerar_combinacao_proporcional`, with the fuel of the fill loop exposed. -/
def gerar_combinacao_proporcional_fuel (fillFuel : Nat) (qtd_numeros : Nat)
    (foco : String) (top_freq top_atra : List Nat) (s : RState) :
    List Nat × RState :=
  let q := quotas qtd_numeros foco
  let ef := if top_freq.length < q.1 then (top_freq, s) else sample q.1 top_freq s
  let ea := if top_atra.length < q.2 then (top_atra, ef.2) else sample q.2 top_atra ef.2
  let comb0 := (ef.1 ++ ea.1).dedup
  let fill := preencher qtd_numeros fillFuel comb0 ea.2
  let cut := if qtd_numeros < fill.1.length then sample qtd_numeros fill.1 fill.2
             else (fill.1, fill.2)
  shuffle cut.1 cut.2

/-- `gerar_combinacao_proporcional` (lines 149-217): sample the two quotas from
the two pools, deduplicate the union, fill up from 1..60, cut down if needed,
shuffle.  Fill fuel 60 is exact: see `preencher_estavel`. -/
def gerar_combinacao_proporcional (qtd_numeros : Nat) (foco : String)
    (top_freq top_atra : List Nat) (s : RState) : List Nat × RState :=
  gerar_combinacao_proporcional_fuel 60 qtd_numeros foco top_freq top_atra s

/-- The count `impares` of line 253: how many numbers of the list are odd. -/
def contar_impares (l : List Nat) : Nat :=
  (l.filter (fun x => decide (x % 2 ≠ 0))).length

/-- Pool construction of lines 244-245: indices 1..60 sorted by descending
table value, first 30 kept. -/
def top30 (t : Nat → Nat) : List Nat :=
  (List.insertionSort (fun a b => t b ≤ t a) (List.range' 1 60)).take 30

/-- The `while True:` loop of `gerar_aposta` (lines 247-267), fuel-indexed:
one fuel unit per attempt, `none` when the fuel is exhausted while the Python
loop would still be running. -/
def gerar_aposta_loop (df : List Sorteio) (qtd_numeros : Nat)
    (prop_impares : ℚ) (foco : String) (top_freq top_atra : List Nat) :
    Nat → RState → Option (List Nat)
  | 0, _ => none
  | fuel + 1, s =>
    let g := gerar_combinacao_proporcional qtd_numeros foco top_freq top_atra s
    let combinacao := List.insertionSort (· ≤ ·) g.1
    let prop_aposta_impares : ℚ := (contar_impares combinacao : ℚ) / (qtd_numeros : ℚ)
    if prop_impares * 0.8 ≤ prop_aposta_impares ∧ prop_aposta_impares ≤ prop_impares * 1.2 then
      if ja_saiu_no_historico combinacao df then
        gerar_aposta_loop df qtd_numeros prop_impares foco top_freq top_atra fuel g.2
      else if tem_mais_de_3_consecutivos combinacao then
        gerar_aposta_loop df qtd_numeros prop_impares foco top_freq top_atra fuel g.2
      else some combinacao
    else
      gerar_aposta_loop df qtd_numeros prop_impares foco top_freq top_atra fuel g.2

/-- `gerar_aposta` (lines 223-267): build the two top-30 pools from the
frequency and staleness tables, then run the rejection-sampling loop. -/
def gerar_aposta (df : List Sorteio) (freq atraso : Nat → Nat)
    (qtd_numeros : Nat) (prop_impares : ℚ) (foco : String)
    (fuel : Nat) (s : RState) : Option (List Nat) :=
  gerar_aposta_loop df qtd_numeros prop_impares foco (top30 freq) (top30 atraso) fuel s

/-! ### Properties of the `random.sample` model -/

theorem sample_length (k : Nat) : ∀ (l : List Nat) (s : RState),
    (sample k l s).1.length = min k l.length := by
  induction k with
  | zero => intro l s; simp [sample]
  | succ k ih =>
    intro l s
    match l with
    | [] => simp [sample]
    | x :: xs =>
      have hlt : (s.next (x :: xs).length).1 < (x :: xs).length :=
        Nat.mod_lt _ (by simp)
      have he : ((x :: xs).eraseIdx ((s.next (x :: xs).length).1)).length
          = (x :: xs).length - 1 := List.length_eraseIdx_of_lt hlt
      simp only [sample, List.length_cons, ih, he]
      simp only [List.length_cons] at he hlt ⊢
      omega

theorem sample_subset (k : Nat) : ∀ (l : List Nat) (s : RState) (x : Nat),
    x ∈ (sample k l s).1 → x ∈ l := by
  induction k with
  | zero => intro l s x hx; simp [sample] at hx
  | succ k ih =>
    intro l s x hx
    match l with
    | [] => simp [sample] at hx
    | a :: as =>
      simp only [sample, List.mem_cons] at hx ⊢
      have hlt : (s.next (a :: as).length).1 < (a :: as).length :=
        Nat.mod_lt _ (by simp)
      rcases hx with h | h
      · have : (a :: as).getD ((s.next (a :: as).length).1) 0 = (a :: as).get ⟨_, hlt⟩ := by
          rw [List.getD_eq_getElem?_getD, List.getElem?_eq_getElem hlt]; rfl
        rw [this] at h
        subst h
        exact List.mem_cons.1 (List.get_mem _ _ hlt)
      · exact List.mem_cons.1 (List.eraseIdx_subset _ _ (ih _ _ _ h))

theorem getElem_not_mem_eraseIdx {l : List Nat} (hnd : l.Nodup) {i : Nat}
    (h : i < l.length) : l.get ⟨i, h⟩ ∉ l.eraseIdx i := by
  have hsplit : l.take i ++ l.drop i = l := List.take_append_drop i l
  have hdrop : l.drop i = l.get ⟨i, h⟩ :: l.drop (i + 1) := by
    simp only [List.get_eq_getElem]
    exact List.drop_eq_getElem_cons h
  have hnd' : (l.take i ++ (l.get ⟨i, h⟩ :: l.drop (i + 1))).Nodup := by
    rw [← hdrop, hsplit]; exact hnd
  rw [List.nodup_append] at hnd'
  intro hmem
  rw [List.eraseIdx_eq_take_drop_succ] at hmem
  rcases List.mem_append.1 hmem with hm | hm
  · exact hnd'.2.2 hm (List.mem_cons_self _ _)
  · exact (List.nodup_cons.1 hnd'.2.1).1 hm

theorem sample_nodup (k : Nat) : ∀ (l : List Nat) (s : RState),
    l.Nodup → (sample k l s).1.Nodup := by
  induction k with
  | zero => intro l s _; simp [sample]
  | succ k ih =>
    intro l s hnd
    match l with
    | [] => simp [sample]
    | a :: as =>
      have hlt : (s.next (a :: as).length).1 < (a :: as).length :=
        Nat.mod_lt _ (by simp)
      simp only [sample, List.nodup_cons]
      constructor
      · intro hmem
        have hget : (a :: as).getD ((s.next (a :: as).length).1) 0
            = (a :: as).get ⟨_, hlt⟩ := by
          rw [List.getD_eq_getElem?_getD, List.getElem?_eq_getElem hlt]; rfl
        rw [hget] at hmem
        exact getElem_not_mem_eraseIdx hnd hlt (sample_subset _ _ _ _ hmem)
      · exact ih _ _ (((a :: as).eraseIdx_sublist _).nodup hnd)

/-! ### Properties of the fill loop -/

theorem choice_mem {l : List Nat} (h : l ≠ []) (s : RState) : (choice l s).1 ∈ l := by
  have hlt : (s.next l.length).1 < l.length := Nat.mod_lt _ (List.length_pos.2 h)
  have hg : l.getD ((s.next l.length).1) 0 = l.get ⟨_, hlt⟩ := by
    rw [List.getD_eq_getElem?_getD, List.getElem?_eq_getElem hlt]; rfl
  rw [choice]
  dsimp only
  rw [hg]
  exact List.get_mem _ _ hlt

/-- Measure of the fill loop: how many numbers of 1..60 are still missing. -/
def medida (comb : List Nat) : Nat :=
  ((List.range' 1 60).filter (fun y => !decide (y ∈ comb))).length

theorem medida_le_60 (comb : List Nat) : medida comb ≤ 60 := by
  have h := List.length_filter_le (fun y => !decide (y ∈ comb)) (List.range' 1 60)
  simpa [medida] using h

theorem filter_notMem_cons {x : Nat} {comb : List Nat} (hx : x ∉ comb) :
    ∀ (l : List Nat), l.Nodup → x ∈ l →
      (l.filter (fun y => !decide (y ∈ x :: comb))).length + 1
        = (l.filter (fun y => !decide (y ∈ comb))).length := by
  intro l
  induction l with
  | nil => intro _ h; cases h
  | cons a t ih =>
    intro hnd hmem
    have hat : a ∉ t := (List.nodup_cons.1 hnd).1
    have hndt : t.Nodup := (List.nodup_cons.1 hnd).2
    by_cases hax : a = x
    · have hxt : x ∉ t := hax ▸ hat
      have hcongr : t.filter (fun y => !decide (y ∈ x :: comb))
          = t.filter (fun y => !decide (y ∈ comb)) := by
        apply List.filter_congr
        intro y hy
        have hya : y ≠ x := fun h => hxt (h ▸ hy)
        simp [List.mem_cons, hya]
      rw [List.filter_cons_of_neg (by simp [List.mem_cons, hax]),
        List.filter_cons_of_pos (by simp [hax ▸ hx]), hcongr]
      simp
    · have hxt : x ∈ t := by
        rcases List.mem_cons.1 hmem with h | h
        · exact absurd h.symm hax
        · exact h
      by_cases hac : a ∈ comb
      · rw [List.filter_cons_of_neg (by simp [List.mem_cons, hac]),
          List.filter_cons_of_neg (by simp [hac])]
        exact ih hndt hxt
      · rw [List.filter_cons_of_pos (by simp [List.mem_cons, hax, hac]),
          List.filter_cons_of_pos (by simp [hac])]
        simp only [List.length_cons]
        have := ih hndt hxt
        omega

theorem medida_insert {x : Nat} {comb : List Nat} (hr : x ∈ List.range' 1 60)
    (hx : x ∉ comb) : medida (comb.insert x) + 1 = medida comb := by
  rw [medida, medida, List.insert_of_not_mem hx]
  exact filter_notMem_cons hx _ (List.nodup_range' ..) hr

theorem preencher_mem (qtd : Nat) : ∀ (fuel : Nat) (comb : List Nat) (s : RState)
    (x : Nat), x ∈ (preencher qtd fuel comb s).1 → x ∈ comb ∨ (1 ≤ x ∧ x ≤ 60) := by
  intro fuel
  induction fuel with
  | zero => intro comb s x hx; exact Or.inl (by simpa [preencher] using hx)
  | succ fuel ih =>
    intro comb s x hx
    simp only [preencher] at hx
    split at hx
    · split at hx
      · exact Or.inl (by simpa using hx)
      · rcases ih _ _ _ hx with h | h
        · rcases List.mem_insert_iff.1 h with h' | h'
          · subst h'
            right
            have hc : (choice ((List.range' 1 60).filter
                (fun y => !decide (y ∈ comb))) s).1
                ∈ (List.range' 1 60).filter (fun y => !decide (y ∈ comb)) := by
              apply choice_mem
              intro hnil
              simp_all
            have := (List.mem_filter.1 hc).1
            simpa using List.mem_range'_1.1 this |>.imp id (by omega)
          · exact Or.inl h'
        · exact Or.inr h
    · exact Or.inl (by simpa using hx)

theorem preencher_mem_of_mem (qtd : Nat) : ∀ (fuel : Nat) (comb : List Nat)
    (s : RState) (x : Nat), x ∈ comb → x ∈ (preencher qtd fuel comb s).1 := by
  intro fuel
  induction fuel with
  | zero => intro comb s x hx; simpa [preencher] using hx
  | succ fuel ih =>
    intro comb s x hx
    simp only [preencher]
    split
    · split
      · simpa using hx
      · exact ih _ _ _ (List.mem_insert_iff.2 (Or.inr hx))
    · simpa using hx

theorem preencher_nodup (qtd : Nat) : ∀ (fuel : Nat) (comb : List Nat) (s : RState),
    comb.Nodup → (preencher qtd fuel comb s).1.Nodup := by
  intro fuel
  induction fuel with
  | zero => intro comb s h; simpa [preencher] using h
  | succ fuel ih =>
    intro comb s h
    simp only [preencher]
    split
    · split
      · simpa using h
      · exact ih _ _ h.insert
    · simpa using h

theorem preencher_length_le (qtd : Nat) : ∀ (fuel : Nat) (comb : List Nat)
    (s : RState), (preencher qtd fuel comb s).1.length ≤ max comb.length qtd := by
  intro fuel
  induction fuel with
  | zero => intro comb s; simp [preencher]
  | succ fuel ih =>
    intro comb s
    simp only [preencher]
    split
    · split
      · simp
      · rename_i hlt _
        refine le_trans (ih _ _) ?_
        have : ((comb.insert (choice ((List.range' 1 60).filter
            (fun y => !decide (y ∈ comb))) s).1)).length ≤ comb.length + 1 := by
          by_cases hmem : (choice ((List.range' 1 60).filter
              (fun y => !decide (y ∈ comb))) s).1 ∈ comb
          · rw [List.length_insert_of_mem hmem]; omega
          · rw [List.length_insert_of_not_mem hmem]
        omega
    · simp

theorem preencher_completa (qtd : Nat) : ∀ (fuel : Nat) (comb : List Nat)
    (s : RState), medida comb ≤ fuel →
    qtd ≤ (preencher qtd fuel comb s).1.length ∨
      ∀ y, 1 ≤ y → y ≤ 60 → y ∈ (preencher qtd fuel comb s).1 := by
  intro fuel
  induction fuel with
  | zero =>
    intro comb s hm
    right
    intro y h1 h60
    have : ((List.range' 1 60).filter (fun z => !decide (z ∈ comb))) = [] :=
      List.length_eq_zero.1 (Nat.le_zero.1 hm)
    have hy : y ∈ List.range' 1 60 := List.mem_range'_1.2 ⟨h1, by omega⟩
    by_contra hyc
    have : y ∈ ((List.range' 1 60).filter (fun z => !decide (z ∈ comb))) := by
      simp only [preencher] at hyc
      exact List.mem_filter.2 ⟨hy, by simpa using hyc⟩
    simp_all
  | succ fuel ih =>
    intro comb s hm
    simp only [preencher]
    split
    · rename_i hlen
      split
      · rename_i hempty
        right
        intro y h1 h60
        have hy : y ∈ List.range' 1 60 := List.mem_range'_1.2 ⟨h1, by omega⟩
        by_contra hyc
        have : y ∈ ((List.range' 1 60).filter (fun z => !decide (z ∈ comb))) :=
          List.mem_filter.2 ⟨hy, by simpa using hyc⟩
        rw [List.isEmpty_iff] at hempty
        simp_all
      · rename_i hempty
        have hne : ((List.range' 1 60).filter (fun y => !decide (y ∈ comb))) ≠ [] := by
          intro h; rw [h] at hempty; simp at hempty
        have hc := choice_mem hne s
        have hcr : (choice ((List.range' 1 60).filter
            (fun y => !decide (y ∈ comb))) s).1 ∈ List.range' 1 60 :=
          (List.mem_filter.1 hc).1
        have hcn : (choice ((List.range' 1 60).filter
            (fun y => !decide (y ∈ comb))) s).1 ∉ comb := by
          have := (List.mem_filter.1 hc).2
          simpa using this
        have hmed : medida (comb.insert (choice ((List.range' 1 60).filter
            (fun y => !decide (y ∈ comb))) s).1) ≤ fuel := by
          have := medida_insert hcr hcn
          omega
        exact ih _ _ hmed
    · left
      simpa using Nat.le_of_not_lt (by assumption)

/-- The fill loop needs at most 60 iterations: with at least that much fuel the
result no longer depends on the fuel.  This is the termination argument for the
`while` loop at lines 204-208. -/
theorem preencher_estavel (qtd : Nat) : ∀ (fuel : Nat) (comb : List Nat)
    (s : RState), medida comb ≤ fuel →
    ∀ g, fuel ≤ g → preencher qtd g comb s = preencher qtd fuel comb s := by
  intro fuel
  induction fuel with
  | zero =>
    intro comb s hm g _
    have hnil : ((List.range' 1 60).filter (fun y => !decide (y ∈ comb))) = [] :=
      List.length_eq_zero.1 (Nat.le_zero.1 hm)
    match g with
    | 0 => rfl
    | g + 1 =>
      simp only [preencher]
      split
      · rw [if_pos (by simp [hnil])]
      · rfl
  | succ fuel ih =>
    intro comb s hm g hg
    match g with
    | 0 => omega
    | g + 1 =>
      simp only [preencher]
      split
      · split
        · rfl
        · rename_i hlen hempty
          have hne : ((List.range' 1 60).filter (fun y => !decide (y ∈ comb))) ≠ [] := by
            intro h; rw [h] at hempty; simp at hempty
          have hc := choice_mem hne s
          have hcr := (List.mem_filter.1 hc).1
          have hcn : (choice ((List.range' 1 60).filter
              (fun y => !decide (y ∈ comb))) s).1 ∉ comb := by
            have := (List.mem_filter.1 hc).2
            simpa using this
          have hmed : medida (comb.insert (choice ((List.range' 1 60).filter
              (fun y => !decide (y ∈ comb))) s).1) ≤ fuel := by
            have := medida_insert hcr hcn
            omega
          rw [ih _ _ hmed g (by omega)]
      · rfl

/-! ### Quotas and the proportional generator -/

theorem quotas_sum (qtd : Nat) (foco : String) :
    (quotas qtd foco).1 + (quotas qtd foco).2 = qtd := by
  have h8 : Nat.ceil ((qtd : ℚ) * 0.8) ≤ qtd := by
    rw [Nat.ceil_le]
    calc (qtd : ℚ) * 0.8 ≤ (qtd : ℚ) * 1 :=
          mul_le_mul_of_nonneg_left (by norm_num) (Nat.cast_nonneg _)
      _ = (qtd : ℚ) := mul_one _
  have h5 : Nat.ceil ((qtd : ℚ) * 0.5) ≤ qtd := by
    rw [Nat.ceil_le]
    calc (qtd : ℚ) * 0.5 ≤ (qtd : ℚ) * 1 :=
          mul_le_mul_of_nonneg_left (by norm_num) (Nat.cast_nonneg _)
      _ = (qtd : ℚ) := mul_one _
  rw [quotas]
  split
  · dsimp only; omega
  · split
    · dsimp only; omega
    · dsimp only; omega

theorem escolhe_length_le (q : Nat) (pool : List Nat) (s : RState) :
    (if pool.length < q then (pool, s) else sample q pool s).1.length ≤ q := by
  split
  · exact Nat.le_of_lt (by assumption)
  · rw [sample_length]; exact Nat.min_le_left _ _

theorem escolhe_subset (q : Nat) (pool : List Nat) (s : RState) (x : Nat) :
    x ∈ (if pool.length < q then (pool, s) else sample q pool s).1 → x ∈ pool := by
  split
  · exact id
  · exact sample_subset _ _ _ _

/-- Structural specification of `gerar_combinacao_proporcional`: whenever both
pools contain only numbers of 1..60 and at most 60 numbers are requested, the
returned list has exactly the requested length, no duplicates, and all its
elements lie in 1..60 — for every random oracle. -/
theorem gerar_combinacao_proporcional_spec (qtd : Nat) (foco : String)
    (tf ta : List Nat) (s : RState)
    (htf : ∀ x ∈ tf, 1 ≤ x ∧ x ≤ 60) (hta : ∀ x ∈ ta, 1 ≤ x ∧ x ≤ 60)
    (hq60 : qtd ≤ 60) :
    (gerar_combinacao_proporcional qtd foco tf ta s).1.length = qtd ∧
    (gerar_combinacao_proporcional qtd foco tf ta s).1.Nodup ∧
    ∀ x ∈ (gerar_combinacao_proporcional qtd foco tf ta s).1, 1 ≤ x ∧ x ≤ 60 := by
  simp only [gerar_combinacao_proporcional, gerar_combinacao_proporcional_fuel]
  set ef := (if tf.length < (quotas qtd foco).1 then (tf, s)
      else sample (quotas qtd foco).1 tf s) with hef_def
  set ea := (if ta.length < (quotas qtd foco).2 then (ta, ef.2)
      else sample (quotas qtd foco).2 ta ef.2) with hea_def
  set comb0 := (ef.1 ++ ea.1).dedup with hcomb0_def
  set fill := preencher qtd 60 comb0 ea.2 with hfill_def
  have hef_len : ef.1.length ≤ (quotas qtd foco).1 := by
    rw [hef_def]; exact escolhe_length_le _ _ _
  have hea_len : ea.1.length ≤ (quotas qtd foco).2 := by
    rw [hea_def]; exact escolhe_length_le _ _ _
  have hcomb0_len : comb0.length ≤ qtd := by
    have h1 : comb0.length ≤ (ef.1 ++ ea.1).length :=
      ((ef.1 ++ ea.1).dedup_sublist).length_le
    have h2 := quotas_sum qtd foco
    rw [List.length_append] at h1
    omega
  have hcomb0_nodup : comb0.Nodup := List.nodup_dedup _
  have hcomb0_mem : ∀ x ∈ comb0, 1 ≤ x ∧ x ≤ 60 := by
    intro x hx
    rcases List.mem_append.1 (List.mem_dedup.1 hx) with h | h
    · exact htf x (by rw [hef_def] at h; exact escolhe_subset _ _ _ _ h)
    · exact hta x (by rw [hea_def] at h; exact escolhe_subset _ _ _ _ h)
  have hfill_nodup : fill.1.Nodup := preencher_nodup qtd 60 comb0 ea.2 hcomb0_nodup
  have hfill_mem : ∀ x ∈ fill.1, 1 ≤ x ∧ x ≤ 60 := by
    intro x hx
    rcases preencher_mem qtd 60 comb0 ea.2 x hx with h | h
    · exact hcomb0_mem x h
    · exact h
  have hfill_le : fill.1.length ≤ qtd := by
    have := preencher_length_le qtd 60 comb0 ea.2
    rw [← hfill_def] at this
    omega
  have hfill_len : fill.1.length = qtd := by
    rcases preencher_completa qtd 60 comb0 ea.2 (medida_le_60 comb0) with h | h
    · rw [← hfill_def] at h; omega
    · rw [← hfill_def] at h
      have hsub : (List.range' 1 60).toFinset ⊆ fill.1.toFinset := by
        intro y hy
        rw [List.mem_toFinset] at hy ⊢
        have hy' := List.mem_range'_1.1 hy
        exact h y hy'.1 (by omega)
      have h1 : (List.range' 1 60).toFinset.card = 60 := by
        rw [List.toFinset_card_of_nodup (List.nodup_range' ..)]
        simp
      have h2 : fill.1.toFinset.card = fill.1.length :=
        List.toFinset_card_of_nodup hfill_nodup
      have := Finset.card_le_card hsub
      omega
  have hcut : (if qtd < fill.1.length then sample qtd fill.1 fill.2
      else (fill.1, fill.2)) = (fill.1, fill.2) := by
    rw [if_neg (by omega)]
  rw [hcut]
  refine ⟨?_, ?_, ?_⟩
  · rw [shuffle, sample_length]; dsimp only; omega
  · exact sample_nodup _ _ _ hfill_nodup
  · intro x hx
    exact hfill_mem x (sample_subset _ _ _ x hx)

/-! ### The rejection-sampling loop -/

/-- Everything the generator returns went through all three validity checks of
lines 252-264, and is the sorted output of one proportional attempt. -/
theorem gerar_aposta_loop_some {df : List Sorteio} {qtd : Nat} {p : ℚ}
    {foco : String} {tf ta : List Nat} : ∀ {fuel : Nat} {s : RState}
    {comb : List Nat},
    gerar_aposta_loop df qtd p foco tf ta fuel s = some comb →
    (∃ s', comb = List.insertionSort (· ≤ ·)
        (gerar_combinacao_proporcional qtd foco tf ta s').1) ∧
    (p * 0.8 ≤ (contar_impares comb : ℚ) / (qtd : ℚ) ∧
      (contar_impares comb : ℚ) / (qtd : ℚ) ≤ p * 1.2) ∧
    ja_saiu_no_historico comb df = false ∧
    tem_mais_de_3_consecutivos comb = false := by
  intro fuel
  induction fuel with
  | zero => intro s comb h; simp [gerar_aposta_loop] at h
  | succ fuel ih =>
    intro s comb h
    simp only [gerar_aposta_loop] at h
    split at h
    · split at h
      · exact ih h
      · split at h
        · exact ih h
        · rename_i hpar hja hcons
          rw [Option.some_inj] at h
          subst h
          refine ⟨⟨s, rfl⟩, hpar, ?_, ?_⟩
          · simpa using hja
          · simpa using hcons
    · exact ih h

/-- With `prop_impares = 1/36` the acceptance window `[0.8/36, 1.2/36]`
contains no fraction `k/6`, so the parity check of line 255 rejects every
combination of 6 numbers. -/
theorem janela_impossivel (k : Nat) :
    ¬((1/36 : ℚ) * 0.8 ≤ (k : ℚ) / ((6 : Nat) : ℚ) ∧
      (k : ℚ) / ((6 : Nat) : ℚ) ≤ (1/36 : ℚ) * 1.2) := by
  rintro ⟨h1, h2⟩
  rw [show ((6 : Nat) : ℚ) = 6 by norm_num] at h1 h2
  rcases Nat.eq_zero_or_pos k with hk | hk
  · subst hk
    norm_num at h1
  · have hk1 : (1 : ℚ) ≤ (k : ℚ) := by exact_mod_cast hk
    have h6 : (1 : ℚ) / 6 ≤ (k : ℚ) / 6 := by linarith
    have : (1/36 : ℚ) * 1.2 < 1 / 6 := by norm_num
    linarith

/-- The `while True:` loop of `gerar_aposta` runs forever when the caller
passes `prop_impares = 1/36` and `qtd_numeros = 6`: no finite number of
attempts ever returns, for any history, any pools and any random stream. -/
theorem gerar_aposta_loop_diverge (df : List Sorteio) (tf ta : List Nat) :
    ∀ (fuel : Nat) (s : RState),
    gerar_aposta_loop df 6 (1/36 : ℚ) "equilibrado" tf ta fuel s = none := by
  intro fuel
  induction fuel with
  | zero => intro s; rfl
  | succ fuel ih =>
    intro s
    simp only [gerar_aposta_loop]
    rw [if_neg (janela_impossivel _)]
    exact ih _

/-- A focus string other than `"frequentes"` and `"atrasados"` falls into the
`else` branch of lines 181-185: it gets the `"equilibrado"` quota split. -/
theorem quotas_foco_desconhecido (qtd : Nat) {foco : String}
    (h1 : foco ≠ "frequentes") (h2 : foco ≠ "atrasados") :
    quotas qtd foco = quotas qtd "equilibrado" := by
  rw [quotas, quotas]
  rw [if_neg h1, if_neg h2, if_neg (by decide), if_neg (by decide)]

theorem gerar_aposta_loop_foco_desconhecido (df : List Sorteio) (qtd : Nat)
    (p : ℚ) {foco : String} (h1 : foco ≠ "frequentes") (h2 : foco ≠ "atrasados")
    (tf ta : List Nat) : ∀ (fuel : Nat) (s : RState),
    gerar_aposta_loop df qtd p foco tf ta fuel s
      = gerar_aposta_loop df qtd p "equilibrado" tf ta fuel s := by
  have hgcp : ∀ s', gerar_combinacao_proporcional qtd foco tf ta s'
      = gerar_combinacao_proporcional qtd "equilibrado" tf ta s' := by
    intro s'
    simp only [gerar_combinacao_proporcional, gerar_combinacao_proporcional_fuel,
      quotas_foco_desconhecido qtd h1 h2]
  intro fuel
  induction fuel with
  | zero => intro s; rfl
  | succ fuel ih =>
    intro s
    simp only [gerar_aposta_loop, hgcp, ih]

/-! ### Characterisation of the consecutive-run check -/

theorem range'_um (a : Nat) : List.range' a 1 = [a] := rfl

/-- Invariant of the scanning loop: with a current run of length `cnt` ending
just before `xs`, the loop accepts iff `xs` continues that run to length 4, or
a full 4-run occurs inside `xs` itself. -/
theorem consecutivosAux_spec : ∀ (xs : List Nat) (prev cnt : Nat), 1 ≤ cnt →
    cnt ≤ 3 →
    (consecutivosAux prev cnt xs = true ↔
      (∃ t, xs = List.range' (prev + 1) (4 - cnt) ++ t) ∨
      (∃ a u v, xs = u ++ List.range' a 4 ++ v)) := by
  intro xs
  induction xs with
  | nil =>
    intro prev cnt h1 h3
    simp only [consecutivosAux, Bool.false_eq_true, false_iff]
    rintro (⟨t, ht⟩ | ⟨a, u, v, huv⟩)
    · have hl := congrArg List.length ht
      simp only [List.length_nil, List.length_append, List.length_range'] at hl
      omega
    · have hl := congrArg List.length huv
      simp only [List.length_nil, List.length_append, List.length_range'] at hl
      omega
  | cons x xs ih =>
    intro prev cnt h1 h3
    simp only [consecutivosAux]
    by_cases hx : x = prev + 1
    · rw [if_pos hx]
      by_cases hcnt : cnt + 1 > 3
      · have hc3 : cnt = 3 := by omega
        subst hc3
        subst hx
        rw [if_pos hcnt]
        constructor
        · intro _
          left
          refine ⟨xs, ?_⟩
          rw [show (4:Nat) - 3 = 1 from rfl, range'_um]
          rfl
        · intro _; rfl
      · rw [if_neg hcnt]
        rw [ih x (cnt + 1) (by omega) (by omega)]
        have h41 : 4 - (cnt + 1) = 3 - cnt := by omega
        have h4 : 4 - cnt = (3 - cnt) + 1 := by omega
        rw [h41, h4, List.range'_succ]
        subst hx
        constructor
        · rintro (⟨t, ht⟩ | ⟨a, u, v, huv⟩)
          · left
            exact ⟨t, by rw [ht, List.cons_append]⟩
          · right
            exact ⟨a, (prev + 1) :: u, v, by rw [huv]; rfl⟩
        · rintro (⟨t, ht⟩ | ⟨a, u, v, huv⟩)
          · rw [List.cons_append, List.cons.injEq] at ht
            exact Or.inl ⟨t, ht.2⟩
          · cases u with
            | nil =>
              rw [List.nil_append, show (4:Nat) = 3 + 1 from rfl,
                List.range'_succ, List.cons_append, List.cons.injEq] at huv
              obtain ⟨ha, hxs⟩ := huv
              subst ha
              left
              have h3c : cnt + (3 - cnt) = 3 := by omega
              have hsplit : List.range' (prev + 1 + 1) (3 - cnt)
                  ++ List.range' (prev + 1 + 1 + (3 - cnt)) cnt
                  = List.range' (prev + 1 + 1) (cnt + (3 - cnt)) :=
                List.range'_append_1 _ _ _
              refine ⟨List.range' (prev + 1 + 1 + (3 - cnt)) cnt ++ v, ?_⟩
              rw [hxs, ← List.append_assoc, hsplit, h3c]
            | cons b u' =>
              rw [List.cons_append, List.cons_append, List.cons.injEq] at huv
              right
              exact ⟨a, u', v, huv.2⟩
    · rw [if_neg hx]
      rw [ih x 1 (by omega) (by omega)]
      rw [show (4:Nat) - 1 = 3 from rfl]
      constructor
      · rintro (⟨t, ht⟩ | ⟨a, u, v, huv⟩)
        · right
          refine ⟨x, [], t, ?_⟩
          rw [List.nil_append, show (4:Nat) = 3 + 1 from rfl, List.range'_succ,
            List.cons_append, ht]
        · right
          exact ⟨a, x :: u, v, by rw [huv]; rfl⟩
      · rintro (⟨t, ht⟩ | ⟨a, u, v, huv⟩)
        · exfalso
          have h4 : 4 - cnt = (3 - cnt) + 1 := by omega
          rw [h4, List.range'_succ, List.cons_append, List.cons.injEq] at ht
          exact hx ht.1
        · cases u with
          | nil =>
            rw [List.nil_append, show (4:Nat) = 3 + 1 from rfl,
              List.range'_succ, List.cons_append, List.cons.injEq] at huv
            obtain ⟨ha, hxs⟩ := huv
            subst ha
            exact Or.inl ⟨v, hxs⟩
          | cons b u' =>
            rw [List.cons_append, List.cons_append, List.cons.injEq] at huv
            right
            exact ⟨a, u', v, huv.2⟩

/-- `tem_mais_de_3_consecutivos` accepts exactly the lists whose ascending sort
contains four consecutive integers in a row. -/
theorem tem_mais_de_3_consecutivos_spec (c : List Nat) :
    tem_mais_de_3_consecutivos c = true ↔
      ∃ a u v, List.insertionSort (· ≤ ·) c = u ++ List.range' a 4 ++ v := by
  rcases hs : List.insertionSort (· ≤ ·) c with _ | ⟨x, xs⟩
  · simp only [tem_mais_de_3_consecutivos, hs, Bool.false_eq_true, false_iff]
    rintro ⟨a, u, v, huv⟩
    have hl := congrArg List.length huv
    simp only [List.length_nil, List.length_append, List.length_range'] at hl
    omega
  · simp only [tem_mais_de_3_consecutivos, hs]
    rw [consecutivosAux_spec xs x 1 (by omega) (by omega)]
    rw [show (4:Nat) - 1 = 3 from rfl]
    constructor
    · rintro (⟨t, ht⟩ | ⟨a, u, v, huv⟩)
      · refine ⟨x, [], t, ?_⟩
        rw [List.nil_append, show (4:Nat) = 3 + 1 from rfl, List.range'_succ,
          List.cons_append, ht]
      · exact ⟨a, x :: u, v, by rw [huv]; rfl⟩
    · rintro ⟨a, u, v, huv⟩
      cases u with
      | nil =>
        rw [List.nil_append, show (4:Nat) = 3 + 1 from rfl, List.range'_succ,
          List.cons_append, List.cons.injEq] at huv
        obtain ⟨ha, hxs⟩ := huv
        subst ha
        exact Or.inl ⟨v, hxs⟩
      | cons b u' =>
        rw [List.cons_append, List.cons_append, List.cons.injEq] at huv
        right
        exact ⟨a, u', v, huv.2⟩

/-- A run of four consecutive integers exists iff a run of four or more does. -/
theorem run_quatro_iff (l : List Nat) :
    (∃ a u v, l = u ++ List.range' a 4 ++ v) ↔
      (∃ a k u v, 4 ≤ k ∧ l = u ++ List.range' a k ++ v) := by
  constructor
  · rintro ⟨a, u, v, h⟩
    exact ⟨a, 4, u, v, le_refl 4, h⟩
  · rintro ⟨a, k, u, v, hk, h⟩
    have hsplit : List.range' a 4 ++ List.range' (a + 4) (k - 4)
        = List.range' a k := by
      rw [List.range'_append_1]
      congr 1
      omega
    refine ⟨a, u, List.range' (a + 4) (k - 4) ++ v, ?_⟩
    rw [h, ← hsplit]
    simp only [List.append_assoc]

/-! ### The duplicate-of-history check -/

theorem setEq_iff (a b : List Nat) : setEq a b = true ↔ a.toFinset = b.toFinset := by
  rw [setEq]
  simp only [Bool.and_eq_true, List.all_eq_true, decide_eq_true_eq]
  constructor
  · rintro ⟨h1, h2⟩
    ext x
    simp only [List.mem_toFinset]
    exact ⟨fun hx => h1 x hx, fun hx => h2 x hx⟩
  · intro h
    constructor
    · intro x hx
      have hm := List.mem_toFinset.2 hx
      rw [h] at hm
      exact List.mem_toFinset.1 hm
    · intro x hx
      have hm := List.mem_toFinset.2 hx
      rw [← h] at hm
      exact List.mem_toFinset.1 hm

theorem ja_saiu_no_historico_iff (c : List Nat) (df : List Sorteio) :
    ja_saiu_no_historico c df = true ↔
      ∃ d ∈ df, c.toFinset = d.bolas.toFinset := by
  rw [ja_saiu_no_historico]
  simp only [List.any_eq_true, setEq_iff]

/-! ### The staleness table -/

theorem foldl_ultimo_const (n : Nat) : ∀ (rest : List Sorteio) (acc : Int),
    (∀ d ∈ rest, n ∉ d.bolas) →
    List.foldl (fun a e => if n ∈ e.bolas then (e.concurso : Int) else a) acc rest
      = acc := by
  intro rest
  induction rest with
  | nil => intro acc _; rfl
  | cons d t ih =>
    intro acc h
    rw [List.foldl_cons, if_neg (h d (List.mem_cons_self _ _))]
    exact ih acc fun e he => h e (List.mem_cons.2 (Or.inr he))

theorem ultimo_concurso_num_ausente {df : List Sorteio} {n : Nat}
    (h : ∀ d ∈ df, n ∉ d.bolas) : ultimo_concurso_num df n = -1 :=
  foldl_ultimo_const n df (-1) h

theorem ultimo_concurso_num_append (l : List Sorteio) (d : Sorteio) (n : Nat) :
    ultimo_concurso_num (l ++ [d]) n
      = if n ∈ d.bolas then (d.concurso : Int) else ultimo_concurso_num l n := by
  rw [ultimo_concurso_num, List.foldl_append]
  rfl

/-- With the history sorted by ascending contest number, the dictionary built
by the row loop holds, for each appearing number, the contest number of its
most recent (= largest-index) appearance. -/
theorem ultimo_concurso_num_max {n : Nat} : ∀ (df : List Sorteio),
    List.Pairwise (fun a b => a.concurso < b.concurso) df →
    ∀ d ∈ df, n ∈ d.bolas → (∀ e ∈ df, n ∈ e.bolas → e.concurso ≤ d.concurso) →
    ultimo_concurso_num df n = (d.concurso : Int) := by
  intro df
  induction df using List.reverseRecOn with
  | nil => intro _ d hd; cases hd
  | append_singleton l last ih =>
    intro hpw d hd hnd hmax
    rw [ultimo_concurso_num_append]
    by_cases hlast : n ∈ last.bolas
    · rw [if_pos hlast]
      rcases List.mem_append.1 hd with hdl | hdl
      · exfalso
        have h1 : d.concurso < last.concurso :=
          (List.pairwise_append.1 hpw).2.2 d hdl last (List.mem_singleton_self _)
        have h2 : last.concurso ≤ d.concurso :=
          hmax last (List.mem_append.2 (Or.inr (List.mem_singleton_self _))) hlast
        omega
      · rw [List.mem_singleton.1 hdl]
    · rw [if_neg hlast]
      have hdl : d ∈ l := by
        rcases List.mem_append.1 hd with h | h
        · exact h
        · exact absurd ((List.mem_singleton.1 h) ▸ hnd) hlast
      exact ih (List.pairwise_append.1 hpw).1 d hdl hnd
        fun e he hne => hmax e (List.mem_append.2 (Or.inl he)) hne

theorem le_foldl_max : ∀ (l : List Nat) (acc : Nat), acc ≤ l.foldl max acc := by
  intro l
  induction l with
  | nil => intro acc; exact le_refl _
  | cons x t ih =>
    intro acc
    rw [List.foldl_cons]
    exact le_trans (le_max_left _ _) (ih _)

theorem mem_le_foldl_max : ∀ (l : List Nat) (acc : Nat) (x : Nat), x ∈ l →
    x ≤ l.foldl max acc := by
  intro l
  induction l with
  | nil => intro acc x hx; cases hx
  | cons y t ih =>
    intro acc x hx
    rw [List.foldl_cons]
    rcases List.mem_cons.1 hx with h | h
    · subst h
      exact le_trans (le_max_right _ _) (le_foldl_max _ _)
    · exact ih _ x h

theorem foldl_max_mem : ∀ (l : List Nat) (acc : Nat),
    l.foldl max acc = acc ∨ l.foldl max acc ∈ l := by
  intro l
  induction l with
  | nil => intro acc; exact Or.inl rfl
  | cons x t ih =>
    intro acc
    rw [List.foldl_cons]
    rcases ih (max acc x) with h | h
    · rcases max_cases acc x with ⟨hm, _⟩ | ⟨hm, _⟩
      · exact Or.inl (h.trans hm)
      · exact Or.inr (List.mem_cons.2 (Or.inl (h.trans hm)))
    · exact Or.inr (List.mem_cons.2 (Or.inr h))

theorem ultimo_concurso_ge (df : List Sorteio) (d : Sorteio) (hd : d ∈ df) :
    d.concurso ≤ ultimo_concurso df := by
  rw [ultimo_concurso]
  exact mem_le_foldl_max _ _ _ (List.mem_map.2 ⟨d, hd, rfl⟩)

theorem ultimo_concurso_atingido (df : List Sorteio) (hne : df ≠ []) :
    ∃ d ∈ df, ultimo_concurso df = d.concurso := by
  rw [ultimo_concurso]
  rcases foldl_max_mem (df.map (·.concurso)) 0 with h | h
  · rcases List.exists_mem_of_ne_nil df hne with ⟨d, hd⟩
    refine ⟨d, hd, ?_⟩
    have h1 := mem_le_foldl_max (df.map (·.concurso)) 0 d.concurso
      (List.mem_map.2 ⟨d, hd, rfl⟩)
    omega
  · rcases List.mem_map.1 h with ⟨d, hd, hdc⟩
    exact ⟨d, hd, hdc.symm⟩

/-! ### Fixtures for witnesses and counterexamples -/

/-- An all-zero frequency or staleness table (all numbers tied). -/
def tabelaZero : Nat → Nat := fun _ => 0

/-- A concrete random stream. -/
def sW : RState := ⟨fun n => 7 * n + 3, 0⟩

/-- A small, index-sorted draw history. -/
def dfW : List Sorteio := [⟨10, [2, 4, 6, 8, 10, 12]⟩, ⟨11, [1, 2, 4, 6, 8, 10]⟩]

/-- A history of six draws containing a single odd ball: its odd ratio is
1/36, and the acceptance window `[0.8/36, 1.2/36]` contains none of the seven
possible odd fractions `k/6` of a 6-number bet. -/
def historicoC1 : List Sorteio :=
  [⟨1, [2, 4, 6, 8, 10, 12]⟩, ⟨2, [14, 16, 18, 20, 22, 24]⟩,
   ⟨3, [26, 28, 30, 32, 34, 36]⟩, ⟨4, [38, 40, 42, 44, 46, 48]⟩,
   ⟨5, [50, 52, 54, 56, 58, 60]⟩, ⟨6, [1, 2, 4, 6, 8, 10]⟩]

theorem top30_range (t : Nat → Nat) : ∀ x ∈ top30 t, 1 ≤ x ∧ x ≤ 60 := by
  intro x hx
  rw [top30] at hx
  have hx' := (List.mem_insertionSort _).1 (List.mem_of_mem_take hx)
  have := List.mem_range'_1.1 hx'
  omega

/-! ### Claims -/

/-- Claim C1 (code bug): the spec demands an attempt cap with an explicit
"unable to satisfy constraints" outcome, but the source's `while True:` loop
at line 247 has no cap.  Witnessed here: the history `historicoC1` has odd
ratio 1/36, and with that `prop_impares` and `qtd_numeros = 6` the loop never
returns — every finite number of attempts is exhausted without an answer, for
every random stream, every table and every history. -/
theorem claim_C1_sem_limite_de_tentativas :
    proporcao_impares_pares historicoC1 = 1 / 36 ∧
    ∀ (fuel : Nat) (s : RState) (freq atraso : Nat → Nat) (df : List Sorteio),
      gerar_aposta df freq atraso 6 (1 / 36 : ℚ) "equilibrado" fuel s = none := by
  constructor
  · with_unfolding_all decide
  · intro fuel s freq atraso df
    rw [gerar_aposta]
    exact gerar_aposta_loop_diverge df _ _ fuel s

/-- Claim C2: every combination returned by `gerar_aposta` (count in [6,15],
any focus, non-empty history, any random stream) has exactly the requested
length, no duplicates, and all elements in 1..60. -/
theorem claim_C2_tamanho_e_intervalo {df : List Sorteio}
    {freq atraso : Nat → Nat} {qtd : Nat} {p : ℚ} {foco : String} {fuel : Nat}
    {s : RState} {comb : List Nat} (h6 : 6 ≤ qtd) (h15 : qtd ≤ 15)
    (hdf : df ≠ []) (h : gerar_aposta df freq atraso qtd p foco fuel s = some comb) :
    comb.length = qtd ∧ comb.Nodup ∧ ∀ x ∈ comb, 1 ≤ x ∧ x ≤ 60 := by
  rw [gerar_aposta] at h
  obtain ⟨⟨s', hcomb⟩, -, -, -⟩ := gerar_aposta_loop_some h
  obtain ⟨hlen, hnodup, hmem⟩ := gerar_combinacao_proporcional_spec qtd foco
    (top30 freq) (top30 atraso) s' (top30_range freq) (top30_range atraso)
    (by omega)
  subst hcomb
  refine ⟨?_, ?_, ?_⟩
  · rw [List.length_insertionSort]
    exact hlen
  · exact ((List.perm_insertionSort _ _).nodup_iff).2 hnodup
  · intro x hx
    exact hmem x ((List.mem_insertionSort _).1 hx)

theorem claim_C2_witness :
    ([3, 4, 12, 20, 25, 51] : List Nat).length = 6 ∧
    ([3, 4, 12, 20, 25, 51] : List Nat).Nodup ∧
    ∀ x ∈ ([3, 4, 12, 20, 25, 51] : List Nat), 1 ≤ x ∧ x ≤ 60 :=
  @claim_C2_tamanho_e_intervalo dfW tabelaZero tabelaZero 6 (1/2) "equilibrado"
    5 sW [3, 4, 12, 20, 25, 51] (by decide) (by decide) (by decide)
    (by with_unfolding_all rfl)

/-- Claim C3: `tem_mais_de_3_consecutivos` accepts a combination iff its
ascending sort contains a run of 4 or more consecutive integers (so runs of
exactly 3 are allowed), and consequently no combination returned by
`gerar_aposta` contains such a run. -/
theorem claim_C3_consecutivos :
    (∀ c : List Nat, tem_mais_de_3_consecutivos c = true ↔
      ∃ a k u v, 4 ≤ k ∧
        List.insertionSort (· ≤ ·) c = u ++ List.range' a k ++ v) ∧
    (∀ (df : List Sorteio) (freq atraso : Nat → Nat) (qtd : Nat) (p : ℚ)
      (foco : String) (fuel : Nat) (s : RState) (comb : List Nat),
      gerar_aposta df freq atraso qtd p foco fuel s = some comb →
      ¬ ∃ a k u v, 4 ≤ k ∧
        List.insertionSort (· ≤ ·) comb = u ++ List.range' a k ++ v) := by
  have hiff : ∀ c : List Nat, tem_mais_de_3_consecutivos c = true ↔
      ∃ a k u v, 4 ≤ k ∧
        List.insertionSort (· ≤ ·) c = u ++ List.range' a k ++ v := by
    intro c
    rw [tem_mais_de_3_consecutivos_spec]
    exact run_quatro_iff _
  refine ⟨hiff, ?_⟩
  intro df freq atraso qtd p foco fuel s comb h hrun
  rw [gerar_aposta] at h
  obtain ⟨-, -, -, hfalse⟩ := gerar_aposta_loop_some h
  rw [← hiff comb, hfalse] at hrun
  exact Bool.noConfusion hrun

theorem claim_C3_witness :
    ∃ a k u v, 4 ≤ k ∧
      List.insertionSort (· ≤ ·) ([1, 5, 6, 7, 8, 20] : List Nat)
        = u ++ List.range' a k ++ v :=
  (claim_C3_consecutivos.1 [1, 5, 6, 7, 8, 20]).1 (by with_unfolding_all rfl)

/-- Claim C4: every returned combination passes the parity window of line 255:
its odd count over the requested count lies in `[0.8·p, 1.2·p]` inclusive (the
returned length equals the requested count, so this is its odd fraction), and
when `p = 0` the window forces an all-even combination. -/
theorem claim_C4_janela_impares {df : List Sorteio} {freq atraso : Nat → Nat}
    {qtd : Nat} {p : ℚ} {foco : String} {fuel : Nat} {s : RState}
    {comb : List Nat} (h6 : 6 ≤ qtd) (h15 : qtd ≤ 15)
    (h : gerar_aposta df freq atraso qtd p foco fuel s = some comb) :
    comb.length = qtd ∧
    p * 0.8 ≤ (contar_impares comb : ℚ) / (qtd : ℚ) ∧
    (contar_impares comb : ℚ) / (qtd : ℚ) ≤ p * 1.2 ∧
    (p = 0 → ∀ x ∈ comb, x % 2 = 0) := by
  rw [gerar_aposta] at h
  obtain ⟨⟨s', hcomb⟩, ⟨hp1, hp2⟩, -, -⟩ := gerar_aposta_loop_some h
  have hlen : comb.length = qtd := by
    obtain ⟨hl, -, -⟩ := gerar_combinacao_proporcional_spec qtd foco
      (top30 freq) (top30 atraso) s' (top30_range freq) (top30_range atraso)
      (by omega)
    rw [hcomb, List.length_insertionSort]
    exact hl
  refine ⟨hlen, hp1, hp2, ?_⟩
  intro hp0
  rw [hp0] at hp2
  have hql : (0 : ℚ) < (qtd : ℚ) := by
    exact_mod_cast (by omega : 0 < qtd)
  have hknn : (0 : ℚ) ≤ (contar_impares comb : ℚ) := Nat.cast_nonneg _
  have hle : (contar_impares comb : ℚ) ≤ 0 := by
    by_contra hlt
    push_neg at hlt
    have := div_pos hlt hql
    rw [zero_mul] at hp2
    linarith
  have hk0 : contar_impares comb = 0 := by
    exact_mod_cast le_antisymm hle hknn
  intro x hx
  rw [contar_impares] at hk0
  have := List.filter_eq_nil_iff.1 (List.length_eq_zero.1 hk0) x hx
  simpa using this

theorem claim_C4_witness :
    ([3, 4, 12, 20, 25, 51] : List Nat).length = 6 ∧
    (1/2 : ℚ) * 0.8 ≤ (contar_impares [3, 4, 12, 20, 25, 51] : ℚ) / ((6 : Nat) : ℚ) ∧
    (contar_impares [3, 4, 12, 20, 25, 51] : ℚ) / ((6 : Nat) : ℚ) ≤ (1/2 : ℚ) * 1.2 ∧
    ((1/2 : ℚ) = 0 → ∀ x ∈ ([3, 4, 12, 20, 25, 51] : List Nat), x % 2 = 0) :=
  @claim_C4_janela_impares dfW tabelaZero tabelaZero 6 (1/2) "equilibrado" 5 sW
    [3, 4, 12, 20, 25, 51] (by decide) (by decide) (by with_unfolding_all rfl)

/-- Claim C5: `ja_saiu_no_historico` is true exactly when the combination's
number set equals the ball set of some history row, and a combination returned
by `gerar_aposta` with `qtd_numeros = 6` never equals the set of a past
draw. -/
theorem claim_C5_nunca_repete_historico {df : List Sorteio}
    {freq atraso : Nat → Nat} {p : ℚ} {foco : String} {fuel : Nat} {s : RState}
    {comb : List Nat}
    (h : gerar_aposta df freq atraso 6 p foco fuel s = some comb) :
    (∀ (c : List Nat) (hist : List Sorteio),
      ja_saiu_no_historico c hist = true ↔
        ∃ d ∈ hist, c.toFinset = d.bolas.toFinset) ∧
    ∀ d ∈ df, comb.toFinset ≠ d.bolas.toFinset := by
  refine ⟨ja_saiu_no_historico_iff, ?_⟩
  intro d hd heq
  rw [gerar_aposta] at h
  obtain ⟨-, -, hja, -⟩ := gerar_aposta_loop_some h
  have htrue : ja_saiu_no_historico comb df = true :=
    (ja_saiu_no_historico_iff _ _).2 ⟨d, hd, heq⟩
  rw [hja] at htrue
  exact Bool.noConfusion htrue

theorem claim_C5_witness :
    (∀ (c : List Nat) (hist : List Sorteio),
      ja_saiu_no_historico c hist = true ↔
        ∃ d ∈ hist, c.toFinset = d.bolas.toFinset) ∧
    ∀ d ∈ dfW, ([3, 4, 12, 20, 25, 51] : List Nat).toFinset ≠ d.bolas.toFinset :=
  @claim_C5_nunca_repete_historico dfW tabelaZero tabelaZero (1/2) "equilibrado"
    5 sW [3, 4, 12, 20, 25, 51] (by with_unfolding_all rfl)

/-- Claim C6: for every count in [6,15] the quota split is exactly
ceil(0.8·N) / remainder for focus `"frequentes"`, the mirror image for
`"atrasados"`, and ceil(0.5·N) / remainder for `"equilibrado"`; in integer
arithmetic `ceil(0.8·N) = (4·N+4)/5` and `ceil(0.5·N) = (N+1)/2` (so N = 11
frequentes gives (9,2) and N = 10 equilibrado gives (5,5)). -/
theorem claim_C6_quotas (qtd : Nat) (h6 : 6 ≤ qtd) (h15 : qtd ≤ 15) :
    quotas qtd "frequentes" = ((4 * qtd + 4) / 5, qtd - (4 * qtd + 4) / 5) ∧
    quotas qtd "atrasados" = (qtd - (4 * qtd + 4) / 5, (4 * qtd + 4) / 5) ∧
    quotas qtd "equilibrado" = ((qtd + 1) / 2, qtd - (qtd + 1) / 2) := by
  interval_cases qtd <;>
    exact ⟨by with_unfolding_all decide, by with_unfolding_all decide,
      by with_unfolding_all decide⟩

theorem claim_C6_witness :
    quotas 11 "frequentes" = ((4 * 11 + 4) / 5, 11 - (4 * 11 + 4) / 5) ∧
    quotas 11 "atrasados" = (11 - (4 * 11 + 4) / 5, (4 * 11 + 4) / 5) ∧
    quotas 11 "equilibrado" = ((11 + 1) / 2, 11 - (11 + 1) / 2) :=
  claim_C6_quotas 11 (by decide) (by decide)

/-- Claim C7 (corrected): the source performs no configuration validation at
all.  An unrecognised focus string is silently treated as `"equilibrado"`
(lines 181-185), and a count outside [6,15] is not rejected by `gerar_aposta`
(only the interactive CLI re-prompts for it, lines 346-355): generation
proceeds.  The original claim — rejection with a ConfigurationError before any
generation — is refuted by `claim_C7_counterexample`. -/
theorem claim_C7_sem_validacao {foco : String} (h1 : foco ≠ "frequentes")
    (h2 : foco ≠ "atrasados") (df : List Sorteio) (freq atraso : Nat → Nat)
    (qtd : Nat) (p : ℚ) (fuel : Nat) (s : RState) :
    gerar_aposta df freq atraso qtd p foco fuel s
      = gerar_aposta df freq atraso qtd p "equilibrado" fuel s := by
  rw [gerar_aposta, gerar_aposta]
  exact gerar_aposta_loop_foco_desconhecido df qtd p h1 h2 _ _ fuel s

/-- Claim C7, counterexample to the original statement: with the invalid count
5 and with the unrecognised focus `"xyz"`, `gerar_aposta` raises nothing and
happily returns a generated combination. -/
theorem claim_C7_counterexample :
    gerar_aposta dfW tabelaZero tabelaZero 5 (3/5 : ℚ) "equilibrado" 5 sW
      = some [4, 5, 10, 19, 25] ∧
    gerar_aposta dfW tabelaZero tabelaZero 6 (1/2 : ℚ) "xyz" 5 sW
      = some [3, 4, 12, 20, 25, 51] :=
  ⟨by with_unfolding_all rfl, by with_unfolding_all rfl⟩

theorem claim_C7_witness :
    gerar_aposta dfW tabelaZero tabelaZero 6 (1/2 : ℚ) "aleatorio" 5 sW
      = gerar_aposta dfW tabelaZero tabelaZero 6 (1/2 : ℚ) "equilibrado" 5 sW :=
  @claim_C7_sem_validacao "aleatorio" (by decide) (by decide) dfW tabelaZero
    tabelaZero 6 (1/2) 5 sW

/-- Claim C8: over an index-sorted non-empty history, the staleness table maps
a number that never appears to the maximum contest index (`ultimo_concurso`,
which is indeed the maximum), and an appearing number to the difference
between the maximum index and the index of its most recent appearance. -/
theorem claim_C8_atraso (df : List Sorteio)
    (hsort : List.Pairwise (fun a b => a.concurso < b.concurso) df)
    (hne : df ≠ []) (n : Nat) (h1 : 1 ≤ n) (h60 : n ≤ 60) :
    ((∀ d ∈ df, n ∉ d.bolas) →
      calcular_atraso_numeros df n = (ultimo_concurso df : Int)) ∧
    (∀ d ∈ df, n ∈ d.bolas → (∀ e ∈ df, n ∈ e.bolas → e.concurso ≤ d.concurso) →
      calcular_atraso_numeros df n
        = (ultimo_concurso df : Int) - (d.concurso : Int)) ∧
    (∀ d ∈ df, d.concurso ≤ ultimo_concurso df) ∧
    (∃ d ∈ df, ultimo_concurso df = d.concurso) := by
  refine ⟨?_, ?_, fun d hd => ultimo_concurso_ge df d hd,
    ultimo_concurso_atingido df hne⟩
  · intro h
    rw [calcular_atraso_numeros, if_pos (ultimo_concurso_num_ausente h)]
  · intro d hd hnd hmax
    have hval := ultimo_concurso_num_max df hsort d hd hnd hmax
    rw [calcular_atraso_numeros, hval, if_neg (by omega)]

theorem claim_C8_witness :
    calcular_atraso_numeros dfW 7 = (ultimo_concurso dfW : Int) :=
  (claim_C8_atraso dfW (by decide) (by decide) 7 (by decide) (by decide)).1
    (by decide)

/-- Claim C9: the generator is a deterministic function of the random stream,
the history, the tables and the configuration — two runs over streams that
agree everywhere (same seed) with the same cursor return the same result. -/
theorem claim_C9_determinismo (df : List Sorteio) (freq atraso : Nat → Nat)
    (p : ℚ) (fuel : Nat) (s1 s2 : RState)
    (hstream : ∀ i, s1.stream i = s2.stream i) (hpos : s1.pos = s2.pos) :
    gerar_aposta df freq atraso 6 p "equilibrado" fuel s1
      = gerar_aposta df freq atraso 6 p "equilibrado" fuel s2 := by
  have hs : s1 = s2 := by
    obtain ⟨st1, p1⟩ := s1
    obtain ⟨st2, p2⟩ := s2
    simp only [RState.mk.injEq]
    exact ⟨funext fun i => hstream i, hpos⟩
  rw [hs]

theorem claim_C9_witness :
    gerar_aposta dfW tabelaZero tabelaZero 6 (1/2) "equilibrado" 5 sW
      = gerar_aposta dfW tabelaZero tabelaZero 6 (1/2) "equilibrado" 5 sW :=
  claim_C9_determinismo dfW tabelaZero tabelaZero (1/2) 5 sW sW
    (fun _ => rfl) rfl

/-- Claim C10: the fill loop of `gerar_combinacao_proporcional` terminates on
every input: each iteration either inserts a missing number of 1..60 (strictly
shrinking the missing set) or stops, so 60 iterations always suffice and any
fuel of at least 60 yields the same result.  All other recursion in the
function is structural. -/
theorem claim_C10_terminacao (f : Nat) (hf : 60 ≤ f) (qtd : Nat)
    (foco : String) (tf ta : List Nat) (s : RState) :
    gerar_combinacao_proporcional_fuel f qtd foco tf ta s
      = gerar_combinacao_proporcional qtd foco tf ta s := by
  rw [gerar_combinacao_proporcional]
  simp only [gerar_combinacao_proporcional_fuel]
  rw [preencher_estavel qtd 60 _ _ (medida_le_60 _) f hf]

theorem claim_C10_witness :
    gerar_combinacao_proporcional_fuel 100 7 "frequentes" [] [] sW
      = gerar_combinacao_proporcional 7 "frequentes" [] [] sW :=
  claim_C10_terminacao 100 (by decide) 7 "frequentes" [] [] sW

end MegaSena
